import Mathlib

/-
Verification of the libebm tensor purification module (Purify.cpp) against its
natural-language specification.  The code is embedded shallowly: the flat
double buffers become functions from flat indices to rationals, the iterative
pass loop becomes a fuel-indexed recursion (returning none when the fuel runs
out before either stopping rule fires), and all floating-point arithmetic is
modelled exactly over the rationals.
-/

/-- Error codes returned by the libebm entry points (the subset that the
Purify shim can produce). -/
inductive ErrorEbm where
  | Error_None
  | Error_OutOfMemory
  | Error_IllegalParamVal
  deriving DecidableEq

/-- Accumulator of the initial scan over all tensor bins in PurifyInternal
(lines 37-52): total weight, total weighted score, and the running sum of
absolute weighted scores (stored in the variable impurityMax before it is
scaled by the tolerance). -/
structure ScanTotals where
  weightTotalAll : ℚ
  impurityTotalAll : ℚ
  impurityMax : ℚ
  deriving DecidableEq

/-- The single do-while loop of PurifyInternal lines 43-52: one pass over the
cTensorBins cells accumulating the three totals. -/
def initialScan (cTensorBins : ℕ) (aWeights aScores : ℕ → ℚ) : ScanTotals :=
  (List.range cTensorBins).foldl
    (fun t i =>
      { weightTotalAll := t.weightTotalAll + aWeights i
        impurityTotalAll := t.impurityTotalAll + aScores i * aWeights i
        impurityMax := t.impurityMax + |aScores i * aWeights i| })
    ⟨0, 0, 0⟩

/-- Loop of PurifyInternal lines 72-80: cSurfaceBins is the sum over all
dimensions of cTensorBins / cBins. -/
def cSurfaceBinsOf (cTensorBins : ℕ) (aDimensionLengths : List ℕ) : ℕ :=
  aDimensionLengths.foldl (fun acc cBins => acc + cTensorBins / cBins) 0

/-- Result of the sweep-dimension search (PurifyInternal lines 94-110):
the stride of the sweep dimension, its index, its extent, and the remaining
cross-section index. -/
structure SweepInfo where
  cTensorIncrement : ℕ
  iSweepDimension : ℕ
  cSweepBins : ℕ
  iDimensionSurfaceBin : ℕ
  deriving DecidableEq

/-- The while(true) search of PurifyInternal lines 98-110: subtract each
surface-bin block size of each dimension until the id falls inside the
block of the current dimension, accumulating the stride of the skipped dimensions.
The empty-list case is never reached for ids below cSurfaceBins (the source
asserts iSweepDimension < cDimensions). -/
def findSweep (cTensorBins : ℕ) : List ℕ → ℕ → SweepInfo
  | [], i => ⟨1, 0, 1, i⟩
  | cSweepBins :: rest, i =>
    if i < cTensorBins / cSweepBins then
      ⟨1, 0, cSweepBins, i⟩
    else
      let r := findSweep cTensorBins rest (i - cTensorBins / cSweepBins)
      ⟨cSweepBins * r.cTensorIncrement, r.iSweepDimension + 1, r.cSweepBins,
        r.iDimensionSurfaceBin⟩

/-- The mixed-radix decoding loop of PurifyInternal lines 112-122, carrying
(dimension index, running multiple, remaining cross-section index, running
tensor offset); returns the tensor offset and the residual cross-section
index (asserted to be zero at line 123). -/
def tensorStartGo (iSweepDimension : ℕ) :
    List ℕ → ℕ → ℕ → ℕ → ℕ → ℕ × ℕ
  | [], _, _, u, iTensor => (iTensor, u)
  | cBins :: rest, iDimension, multiple, u, iTensor =>
    if iDimension = iSweepDimension then
      tensorStartGo iSweepDimension rest (iDimension + 1) (multiple * cBins) u iTensor
    else
      tensorStartGo iSweepDimension rest (iDimension + 1) (multiple * cBins)
        (u / cBins) (iTensor + u % cBins * multiple)

/-- Entry point of the decoding loop (iTensor = 0, multiple = 1). -/
def tensorStart (aDimensionLengths : List ℕ) (iSweepDimension u : ℕ) : ℕ × ℕ :=
  tensorStartGo iSweepDimension aDimensionLengths 0 1 u 0

/-- Geometry of one surface bin: starting offset, stride, and number of cells
of the axis-aligned slice it denotes. -/
structure SliceInfo where
  iTensor : ℕ
  cTensorIncrement : ℕ
  cSweepBins : ℕ

/-- Decode a linear surface-bin id into its slice geometry
(PurifyInternal lines 94-125). -/
def sliceInfo (cTensorBins : ℕ) (aDimensionLengths : List ℕ)
    (iAllSurfaceBin : ℕ) : SliceInfo :=
  let sw := findSweep cTensorBins aDimensionLengths iAllSurfaceBin
  let ts := tensorStart aDimensionLengths sw.iSweepDimension sw.iDimensionSurfaceBin
  ⟨ts.1, sw.cTensorIncrement, sw.cSweepBins⟩

/-- Weight sum over the slice of a surface bin (the weightTotal accumulation
of PurifyInternal lines 127-134). -/
def sliceWeightTotal (cTensorBins : ℕ) (aDimensionLengths : List ℕ)
    (aWeights : ℕ → ℚ) (iAllSurfaceBin : ℕ) : ℚ :=
  let sl := sliceInfo cTensorBins aDimensionLengths iAllSurfaceBin
  (List.range sl.cSweepBins).foldl
    (fun acc k => acc + aWeights (sl.iTensor + sl.cTensorIncrement * k)) 0

/-- Weighted score sum over the slice of a surface bin (the impurity
accumulation of PurifyInternal lines 126-134). -/
def sliceImpuritySum (cTensorBins : ℕ) (aDimensionLengths : List ℕ)
    (aWeights aScores : ℕ → ℚ) (iAllSurfaceBin : ℕ) : ℚ :=
  let sl := sliceInfo cTensorBins aDimensionLengths iAllSurfaceBin
  (List.range sl.cSweepBins).foldl
    (fun acc k =>
      acc + aScores (sl.iTensor + sl.cTensorIncrement * k) *
        aWeights (sl.iTensor + sl.cTensorIncrement * k)) 0

/-- The weighted mean of a slice, with the zero-weight guard of
PurifyInternal line 136 (a slice of total weight zero has impurity 0). -/
def sliceMean (cTensorBins : ℕ) (aDimensionLengths : List ℕ)
    (aWeights aScores : ℕ → ℚ) (iAllSurfaceBin : ℕ) : ℚ :=
  let weightTotal := sliceWeightTotal cTensorBins aDimensionLengths aWeights iAllSurfaceBin
  if weightTotal = 0 then 0
  else sliceImpuritySum cTensorBins aDimensionLengths aWeights aScores iAllSurfaceBin / weightTotal

/-- Whether tensor cell i lies on the slice denoted by surface bin b. -/
def sliceContains (cTensorBins : ℕ) (aDimensionLengths : List ℕ)
    (b i : ℕ) : Bool :=
  let sl := sliceInfo cTensorBins aDimensionLengths b
  (List.range sl.cSweepBins).any
    (fun k => i = sl.iTensor + sl.cTensorIncrement * k)

/-- Mutable state of one purification pass (PurifyInternal lines 88-148):
the scores buffer, the impurities buffer, the running total of absolute
impurities, and the retry flag. -/
structure PassState where
  aScores : ℕ → ℚ
  aImpurities : ℕ → ℚ
  impurityCur : ℚ
  bRetry : Bool

/-- Body of the surface-bin loop of PurifyInternal lines 93-148 for one
surface bin: decode the slice, take its weighted mean, flag a retry when it
exceeds impurityMax, add its absolute value to the pass total, accumulate it
into the impurities buffer, and subtract it from every score on the slice
(the source adds the negated impurity). -/
def processBin (cTensorBins : ℕ) (aDimensionLengths : List ℕ)
    (aWeights : ℕ → ℚ) (impurityMax : ℚ) (st : PassState)
    (iAllSurfaceBin : ℕ) : PassState :=
  let sl := sliceInfo cTensorBins aDimensionLengths iAllSurfaceBin
  let impurity := sliceMean cTensorBins aDimensionLengths aWeights st.aScores iAllSurfaceBin
  let absImpurity := |impurity|
  { aScores :=
      (List.range sl.cSweepBins).foldl
        (fun s k =>
          Function.update s (sl.iTensor + sl.cTensorIncrement * k)
            (s (sl.iTensor + sl.cTensorIncrement * k) - impurity))
        st.aScores
    aImpurities :=
      Function.update st.aImpurities iAllSurfaceBin
        (st.aImpurities iAllSurfaceBin + impurity)
    impurityCur := st.impurityCur + absImpurity
    bRetry := st.bRetry || decide (impurityMax < absImpurity) }

/-- One whole purification pass: the for loop of PurifyInternal line 93 over
all surface bin ids in ascending order. -/
def purifyPass (cTensorBins : ℕ) (aDimensionLengths : List ℕ)
    (aWeights : ℕ → ℚ) (impurityMax : ℚ)
    (aScores aImpurities : ℕ → ℚ) : PassState :=
  (List.range (cSurfaceBinsOf cTensorBins aDimensionLengths)).foldl
    (processBin cTensorBins aDimensionLengths aWeights impurityMax)
    ⟨aScores, aImpurities, 0, false⟩

/-- Result of the pass loop, with an instrumentation flag recording which of
the two exits fired: true for the monotonic non-improvement break at
PurifyInternal line 152, false for the while(bRetry) exit at line 155. -/
structure LoopResult where
  aScores : ℕ → ℚ
  aImpurities : ℕ → ℚ
  exitedViaGuard : Bool

/-- The comparison impurityPrev <= impurityCur of PurifyInternal line 150,
where none models the initial +infinity previous total (line 84); infinity
is never less than or equal to a rational total. -/
def prevLe : Option ℚ → ℚ → Bool
  | none, _ => false
  | some p, c => decide (p ≤ c)

/-- The do-while pass loop of PurifyInternal lines 87-155, indexed by fuel
(the number of passes still allowed); returns none when the fuel is
exhausted while the loop wants another pass. -/
def purifyLoop (cTensorBins : ℕ) (aDimensionLengths : List ℕ)
    (aWeights : ℕ → ℚ) (impurityMax : ℚ) :
    ℕ → Option ℚ → (ℕ → ℚ) → (ℕ → ℚ) → Option LoopResult
  | 0, _, _, _ => none
  | fuel + 1, impurityPrev, aScores, aImpurities =>
    let st := purifyPass cTensorBins aDimensionLengths aWeights impurityMax
      aScores aImpurities
    if prevLe impurityPrev st.impurityCur then
      some ⟨st.aScores, st.aImpurities, true⟩
    else if st.bRetry then
      purifyLoop cTensorBins aDimensionLengths aWeights impurityMax fuel
        (some st.impurityCur) st.aScores st.aImpurities
    else
      some ⟨st.aScores, st.aImpurities, false⟩

/-- Observable outcome of PurifyInternal: the two mutated buffers, the
intercept slot (none models a null pInterceptOut), the returned error code,
and the instrumentation flag of the pass loop (none when the loop was never
entered because the total weight was zero). -/
structure PurifyOut where
  aScores : ℕ → ℚ
  aImpurities : ℕ → ℚ
  interceptOut : Option ℚ
  error : ErrorEbm
  exitedViaGuard : Option Bool

/-- PurifyInternal (Purify.cpp lines 22-158).  cDimensions and the dimension
lengths array are modelled by the list aDimensionLengths; fuel bounds the
number of passes of the convergence loop.  Mirrors, in order: the initial
scan, the zero-total-weight early return, the scaling of impurityMax, the
optional intercept extraction and subtraction, the surface-bin count, the
memset of the impurities buffer, and the pass loop. -/
def PurifyInternal (fuel : ℕ) (cTensorBins : ℕ) (tolerance : ℚ)
    (aDimensionLengths : List ℕ) (aWeights aScores aImpurities : ℕ → ℚ)
    (pInterceptOut : Option ℚ) : Option PurifyOut :=
  let t := initialScan cTensorBins aWeights aScores
  if t.weightTotalAll = 0 then
    some ⟨aScores, aImpurities, pInterceptOut, ErrorEbm.Error_None, none⟩
  else
    let impurityMax := t.impurityMax * tolerance / t.weightTotalAll
    let intercepted : (ℕ → ℚ) × Option ℚ :=
      match pInterceptOut with
      | none => (aScores, none)
      | some _ =>
        let intercept := t.impurityTotalAll / t.weightTotalAll
        (fun i => if i < cTensorBins then aScores i + -intercept else aScores i,
          some intercept)
    let cSurfaceBins := cSurfaceBinsOf cTensorBins aDimensionLengths
    let aImpurities2 : ℕ → ℚ := fun b => if b < cSurfaceBins then 0 else aImpurities b
    match purifyLoop cTensorBins aDimensionLengths aWeights impurityMax fuel none
        intercepted.1 aImpurities2 with
    | none => none
    | some r =>
      some ⟨r.aScores, r.aImpurities, intercepted.2, ErrorEbm.Error_None, some r.exitedViaGuard⟩

/-- View a finite list of rationals as a flat buffer (cells beyond the list
read as 0; the algorithm never reads beyond the modelled extent). -/
def listFn (l : List ℚ) : ℕ → ℚ := fun i => l.getD i 0

/-- Default PurifyOut used only to project concrete optional results. -/
def defaultPurifyOut : PurifyOut :=
  ⟨listFn [], listFn [], none, ErrorEbm.Error_None, none⟩

/-- IsConvertError<size_t> for a non-negative IntEbm value (Purify line 234):
the conversion fails when the value exceeds the largest representable size,
modelled by the parameter sizeMax. -/
def IsConvertError (sizeMax : ℕ) (v : ℤ) : Bool := decide ((sizeMax : ℤ) < v)

/-- IsMultiplyError (Purify line 241): the product of the running bin count
and the next extent would exceed sizeMax. -/
def IsMultiplyError (sizeMax a b : ℕ) : Bool := decide (sizeMax < a * b)

/-- The total-bin-count loop of Purify lines 229-249: convert each extent
and multiply, returning none on the first overflow (the shim then reports
Error_OutOfMemory). -/
def computeTensorBins (sizeMax : ℕ) : List ℤ → ℕ → Option ℕ
  | [], cTensorBins => some cTensorBins
  | d :: rest, cTensorBins =>
    if IsConvertError sizeMax d then none
    else if IsMultiplyError sizeMax cTensorBins d.toNat then none
    else computeTensorBins sizeMax rest (cTensorBins * d.toNat)

/-- Observable outcome of the Purify shim: the error code, the (possibly
null, possibly mutated) buffers and the intercept slot. -/
structure ShimOut where
  error : ErrorEbm
  scores : Option (ℕ → ℚ)
  impurities : Option (ℕ → ℚ)
  interceptOut : Option ℚ

/-- The caller-facing shim Purify (Purify.cpp lines 161-273), parametrised by
the configuration constants k_cDimensionsMax and the maximal representable
size (both defined outside this translation unit).  Null pointers are
modelled by none; bInterceptRequested models whether interceptOut is
non-null, in which case the shim zeroes it first (line 188).  The
dimension-length validation loop (lines 211-227) returns at the first
negative length and otherwise only sets the empty-tensor flag, so its
observable behaviour is: any negative length gives Error_IllegalParamVal,
otherwise any zero length gives the empty-tensor trivial success. -/
def Purify (cDimensionsMax sizeMax fuel : ℕ) (tolerance : ℚ)
    (countDimensions : ℤ) (dimensionLengths : Option (List ℤ))
    (weights scores impurities : Option (ℕ → ℚ))
    (bInterceptRequested : Bool) : Option ShimOut :=
  let interceptOut : Option ℚ := if bInterceptRequested then some 0 else none
  if countDimensions ≤ 0 then
    if countDimensions = 0 then
      some ⟨ErrorEbm.Error_None, scores, impurities, interceptOut⟩
    else
      some ⟨ErrorEbm.Error_IllegalParamVal, scores, impurities, interceptOut⟩
  else if (cDimensionsMax : ℤ) < countDimensions then
    some ⟨ErrorEbm.Error_OutOfMemory, scores, impurities, interceptOut⟩
  else
    match dimensionLengths with
    | none => some ⟨ErrorEbm.Error_IllegalParamVal, scores, impurities, interceptOut⟩
    | some dl =>
      if dl.any (fun d => decide (d < 0)) then
        some ⟨ErrorEbm.Error_IllegalParamVal, scores, impurities, interceptOut⟩
      else if dl.any (fun d => decide (d = 0)) then
        some ⟨ErrorEbm.Error_None, scores, impurities, interceptOut⟩
      else
        match computeTensorBins sizeMax dl 1 with
        | none => some ⟨ErrorEbm.Error_OutOfMemory, scores, impurities, interceptOut⟩
        | some cTensorBins =>
          match weights with
          | none => some ⟨ErrorEbm.Error_IllegalParamVal, scores, impurities, interceptOut⟩
          | some w =>
            match scores with
            | none => some ⟨ErrorEbm.Error_IllegalParamVal, scores, impurities, interceptOut⟩
            | some s =>
              match impurities with
              | none => some ⟨ErrorEbm.Error_IllegalParamVal, scores, impurities, interceptOut⟩
              | some im =>
                match PurifyInternal fuel cTensorBins tolerance
                    (dl.map Int.toNat) w s im interceptOut with
                | none => none
                | some r =>
                  some ⟨r.error, some r.aScores, some r.aImpurities, r.interceptOut⟩

/-- Default ShimOut used only to project concrete optional results. -/
def defaultShimOut : ShimOut := ⟨ErrorEbm.Error_None, none, none, none⟩

/-- Product of all extents of a shape except the one at a given index. -/
def prodExcept : List ℕ → ℕ → ℕ
  | [], _ => 1
  | _ :: rest, 0 => rest.prod
  | c :: rest, d + 1 => c * prodExcept rest d

/-- The conservation invariant carried through the pass loop: the residual score of every cell plus the accumulated impurities of all surface bins whose
slice contains the cell reconstructs a fixed base value. -/
def consInv (T : ℕ) (dims : List ℕ) (base scores imps : ℕ → ℚ) : Prop :=
  ∀ i < T,
    scores i + ∑ b ∈ Finset.range (cSurfaceBinsOf T dims),
      (if sliceContains T dims b i then imps b else 0) = base i

/-! ### Basic lemmas about the embedded definitions -/

/-- The initial scan computes the three advertised sums. -/
theorem initialScan_eq (n : ℕ) (w s : ℕ → ℚ) :
    initialScan n w s =
      ⟨∑ i ∈ Finset.range n, w i, ∑ i ∈ Finset.range n, s i * w i,
        ∑ i ∈ Finset.range n, |s i * w i|⟩ := by
  induction n with
  | zero => rfl
  | succ n ih =>
    rw [initialScan, List.range_succ, List.foldl_append, List.foldl_cons, List.foldl_nil]
    rw [initialScan] at ih
    rw [ih]
    simp [Finset.sum_range_succ]

/-- The sweep stride returned by findSweep is positive whenever all dimension
extents are positive (it is a product of extents). -/
theorem findSweep_inc_pos (T : ℕ) (dims : List ℕ) (hpos : ∀ d ∈ dims, 0 < d) :
    ∀ i, 0 < (findSweep T dims i).cTensorIncrement := by
  induction dims with
  | nil => intro i; simp [findSweep]
  | cons c rest ih =>
    intro i
    rw [findSweep]
    split
    · exact Nat.one_pos
    · have hc : 0 < c := hpos c (by simp)
      have hr := ih (fun d hd => hpos d (List.mem_cons_of_mem c hd)) (i - T / c)
      exact Nat.mul_pos hc hr

/-- Pointwise effect of the score-update loop of one surface bin: every cell
on the slice loses exactly the impurity once (slice cells are pairwise
distinct because the stride is positive), other cells are untouched. -/
theorem foldl_update_sub_apply (a inc : ℕ) (hinc : 0 < inc) (m : ℚ) :
    ∀ (n : ℕ) (f : ℕ → ℚ) (i : ℕ),
      ((List.range n).foldl
        (fun s k => Function.update s (a + inc * k) (s (a + inc * k) - m)) f) i
      = if ∃ k, k < n ∧ a + inc * k = i then f i - m else f i := by
  intro n
  induction n with
  | zero => intro f i; simp
  | succ n ih =>
    intro f i
    rw [List.range_succ, List.foldl_append, List.foldl_cons, List.foldl_nil]
    rcases eq_or_ne i (a + inc * n) with hi | hi
    · rw [hi, Function.update_same, ih]
      have hnone : ¬ ∃ k, k < n ∧ a + inc * k = a + inc * n := by
        rintro ⟨k, hk, he⟩
        have h1 : inc * k = inc * n := by omega
        have h2 : k = n := Nat.eq_of_mul_eq_mul_left hinc h1
        omega
      rw [if_neg hnone]
      have hyes : ∃ k, k < n + 1 ∧ a + inc * k = a + inc * n := ⟨n, by omega, rfl⟩
      rw [if_pos hyes]
    · rw [Function.update_noteq hi, ih]
      have hiff : (∃ k, k < n ∧ a + inc * k = i) ↔ (∃ k, k < n + 1 ∧ a + inc * k = i) := by
        constructor
        · rintro ⟨k, hk, he⟩; exact ⟨k, by omega, he⟩
        · rintro ⟨k, hk, he⟩
          refine ⟨k, ?_, he⟩
          rcases Nat.lt_succ_iff_lt_or_eq.mp hk with h | h
          · exact h
          · subst h; exact absurd he (fun he2 => hi he2.symm)
      rw [if_congr hiff rfl rfl]

/-- A foldl preserves any invariant preserved by each step. -/
theorem foldl_invariant {α β : Type} (Inv : α → Prop) (step : α → β → α) :
    ∀ (l : List β) (init : α), Inv init →
      (∀ a b, b ∈ l → Inv a → Inv (step a b)) → Inv (l.foldl step init) := by
  intro l
  induction l with
  | nil => intro init h _; simpa using h
  | cons x xs ih =>
    intro init h hstep
    exact ih (step init x) (hstep init x (List.mem_cons_self x xs) h)
      (fun a b hb ha => hstep a b (List.mem_cons_of_mem x hb) ha)

/-- Updating the impurities buffer at one surface bin shifts a conditioned
sum over all surface bins by the added amount exactly when the condition
holds at that bin. -/
theorem sum_ite_update (S b0 : ℕ) (hb0 : b0 < S) (imp : ℕ → ℚ) (m : ℚ) (P : ℕ → Bool) :
    ∑ b ∈ Finset.range S, (if P b then Function.update imp b0 (imp b0 + m) b else 0)
      = (∑ b ∈ Finset.range S, (if P b then imp b else 0)) + (if P b0 then m else 0) := by
  have hmem : b0 ∈ Finset.range S := Finset.mem_range.mpr hb0
  rw [Finset.sum_eq_sum_diff_singleton_add hmem
    (fun b => if P b then Function.update imp b0 (imp b0 + m) b else 0)]
  rw [Finset.sum_eq_sum_diff_singleton_add hmem (fun b => if P b then imp b else 0)]
  have hsame : ∑ b ∈ Finset.range S \ {b0},
      (if P b then Function.update imp b0 (imp b0 + m) b else 0)
      = ∑ b ∈ Finset.range S \ {b0}, (if P b then imp b else 0) := by
    refine Finset.sum_congr rfl ?_
    intro b hb
    have hbne : b ≠ b0 := by
      have := (Finset.mem_sdiff.mp hb).2
      simpa using this
    rw [Function.update_noteq hbne]
  rw [hsame, Function.update_same]
  by_cases hp : P b0
  · rw [if_pos hp, if_pos hp, if_pos hp]; ring
  · rw [if_neg hp, if_neg hp, if_neg hp]; ring

/-- Membership of a cell in a slice, unfolded. -/
theorem sliceContains_iff (T : ℕ) (dims : List ℕ) (b i : ℕ) :
    sliceContains T dims b i = true ↔
      ∃ k, k < (sliceInfo T dims b).cSweepBins ∧
        (sliceInfo T dims b).iTensor + (sliceInfo T dims b).cTensorIncrement * k = i := by
  unfold sliceContains
  rw [List.any_eq_true]
  constructor
  · rintro ⟨k, hk, he⟩
    exact ⟨k, List.mem_range.mp hk, (of_decide_eq_true he).symm⟩
  · rintro ⟨k, hk, he⟩
    exact ⟨k, List.mem_range.mpr hk, decide_eq_true he.symm⟩

/-! ### Conservation (claim C1) -/

theorem processBin_conserves (T : ℕ) (dims : List ℕ)
    (hpos : ∀ d ∈ dims, 0 < d) (w : ℕ → ℚ) (τ : ℚ) (base : ℕ → ℚ)
    (st : PassState) (b0 : ℕ) (hb0 : b0 < cSurfaceBinsOf T dims)
    (h : consInv T dims base st.aScores st.aImpurities) :
    consInv T dims base (processBin T dims w τ st b0).aScores
      (processBin T dims w τ st b0).aImpurities := by
  intro i hi
  have hinc : 0 < (sliceInfo T dims b0).cTensorIncrement :=
    findSweep_inc_pos T dims hpos b0
  have hsc : (processBin T dims w τ st b0).aScores i
      = if ∃ k, k < (sliceInfo T dims b0).cSweepBins ∧
            (sliceInfo T dims b0).iTensor + (sliceInfo T dims b0).cTensorIncrement * k = i
        then st.aScores i - sliceMean T dims w st.aScores b0 else st.aScores i := by
    show ((List.range (sliceInfo T dims b0).cSweepBins).foldl _ st.aScores) i = _
    exact foldl_update_sub_apply (sliceInfo T dims b0).iTensor
      (sliceInfo T dims b0).cTensorIncrement hinc
      (sliceMean T dims w st.aScores b0) (sliceInfo T dims b0).cSweepBins st.aScores i
  have him : ∑ b ∈ Finset.range (cSurfaceBinsOf T dims),
      (if sliceContains T dims b i then (processBin T dims w τ st b0).aImpurities b else 0)
      = (∑ b ∈ Finset.range (cSurfaceBinsOf T dims),
          (if sliceContains T dims b i then st.aImpurities b else 0))
        + (if sliceContains T dims b0 i then sliceMean T dims w st.aScores b0 else 0) := by
    exact sum_ite_update (cSurfaceBinsOf T dims) b0 hb0 st.aImpurities
      (sliceMean T dims w st.aScores b0) (fun b => sliceContains T dims b i)
  rw [hsc, him]
  by_cases hc : sliceContains T dims b0 i = true
  · rw [if_pos ((sliceContains_iff T dims b0 i).mp hc), if_pos hc]
    have hbase := h i hi
    ring_nf
    ring_nf at hbase
    linarith
  · have hc2 : ¬ ∃ k, k < (sliceInfo T dims b0).cSweepBins ∧
        (sliceInfo T dims b0).iTensor + (sliceInfo T dims b0).cTensorIncrement * k = i := by
      intro hex
      exact hc ((sliceContains_iff T dims b0 i).mpr hex)
    rw [if_neg hc2, if_neg (by simpa using hc)]
    have hbase := h i hi
    linarith

theorem purifyPass_conserves (T : ℕ) (dims : List ℕ)
    (hpos : ∀ d ∈ dims, 0 < d) (w : ℕ → ℚ) (τ : ℚ) (base : ℕ → ℚ)
    (s imps : ℕ → ℚ) (h : consInv T dims base s imps) :
    consInv T dims base (purifyPass T dims w τ s imps).aScores
      (purifyPass T dims w τ s imps).aImpurities := by
  have := foldl_invariant
    (fun st : PassState => consInv T dims base st.aScores st.aImpurities)
    (processBin T dims w τ) (List.range (cSurfaceBinsOf T dims))
    ⟨s, imps, 0, false⟩ h
    (fun a b hb ha =>
      processBin_conserves T dims hpos w τ base a b (List.mem_range.mp hb) ha)
  exact this

theorem purifyLoop_conserves (T : ℕ) (dims : List ℕ)
    (hpos : ∀ d ∈ dims, 0 < d) (w : ℕ → ℚ) (τ : ℚ) (base : ℕ → ℚ) :
    ∀ (fuel : ℕ) (prev : Option ℚ) (s imps : ℕ → ℚ) (r : LoopResult),
      consInv T dims base s imps →
      purifyLoop T dims w τ fuel prev s imps = some r →
      consInv T dims base r.aScores r.aImpurities := by
  intro fuel
  induction fuel with
  | zero => intro prev s imps r h hrun; simp [purifyLoop] at hrun
  | succ n ih =>
    intro prev s imps r h hrun
    rw [purifyLoop] at hrun
    have hp := purifyPass_conserves T dims hpos w τ base s imps h
    by_cases h1 : prevLe prev (purifyPass T dims w τ s imps).impurityCur = true
    · rw [if_pos h1] at hrun
      have := Option.some.inj hrun
      rw [← this]
      exact hp
    · rw [if_neg h1] at hrun
      by_cases h2 : (purifyPass T dims w τ s imps).bRetry = true
      · rw [if_pos h2] at hrun
        exact ih _ _ _ _ hp hrun
      · rw [if_neg h2] at hrun
        have := Option.some.inj hrun
        rw [← this]
        exact hp

/-- Claim C1 (conservation): for every valid input — positive extents whose
product is the tensor bin count, non-negative weights with nonzero total —
whenever PurifyInternal returns, the original score of every cell equals its final
residual score, plus the intercept when one was requested, plus the sum of
the accumulated impurities of all surface bins whose slice contains the
cell, exactly in rational arithmetic. -/
theorem purify_conservation (fuel T : ℕ) (tol : ℚ) (dims : List ℕ)
    (w s imps : ℕ → ℚ) (icept : Option ℚ)
    (hpos : ∀ d ∈ dims, 0 < d) (hT : T = dims.prod)
    (hw : ∀ i < T, 0 ≤ w i)
    (hW : ∑ i ∈ Finset.range T, w i ≠ 0)
    (out : PurifyOut)
    (hrun : PurifyInternal fuel T tol dims w s imps icept = some out) :
    ∀ i < T, s i = out.aScores i + out.interceptOut.getD 0 +
      ∑ b ∈ Finset.range (cSurfaceBinsOf T dims),
        (if sliceContains T dims b i then out.aImpurities b else 0) := by
  have hW2 : ¬ (initialScan T w s).weightTotalAll = 0 := by
    rw [initialScan_eq]; exact hW
  rw [PurifyInternal.eq_def] at hrun
  simp only [] at hrun
  rw [if_neg hW2] at hrun
  have hzero : ∀ imps0 : ℕ → ℚ,
      consInv T dims imps0 imps0
        (fun b => if b < cSurfaceBinsOf T dims then 0 else imps b) := by
    intro imps0 i hi
    have : ∑ b ∈ Finset.range (cSurfaceBinsOf T dims),
        (if sliceContains T dims b i then
          (if b < cSurfaceBinsOf T dims then (0:ℚ) else imps b) else 0) = 0 := by
      refine Finset.sum_eq_zero ?_
      intro b hb
      rw [if_pos (Finset.mem_range.mp hb)]
      by_cases hc : sliceContains T dims b i = true
      · rw [if_pos hc]
      · rw [if_neg (by simpa using hc)]
    rw [this, add_zero]
  cases icept with
  | none =>
    simp only at hrun
    cases hloop : purifyLoop T dims w
        ((initialScan T w s).impurityMax * tol / (initialScan T w s).weightTotalAll)
        fuel none s (fun b => if b < cSurfaceBinsOf T dims then 0 else imps b) with
    | none => rw [hloop] at hrun; exact absurd hrun (by simp)
    | some r =>
      rw [hloop] at hrun
      have hout := Option.some.inj hrun
      have hcons := purifyLoop_conserves T dims hpos w
        ((initialScan T w s).impurityMax * tol / (initialScan T w s).weightTotalAll)
        s fuel none s (fun b => if b < cSurfaceBinsOf T dims then 0 else imps b) r
        (hzero s) hloop
      intro i hi
      have := hcons i hi
      rw [← hout]
      simp only [Option.getD_none]
      linarith
  | some x0 =>
    simp only at hrun
    cases hloop : purifyLoop T dims w
        ((initialScan T w s).impurityMax * tol / (initialScan T w s).weightTotalAll)
        fuel none
        (fun i => if i < T then
          s i + -((initialScan T w s).impurityTotalAll / (initialScan T w s).weightTotalAll)
          else s i)
        (fun b => if b < cSurfaceBinsOf T dims then 0 else imps b) with
    | none => rw [hloop] at hrun; exact absurd hrun (by simp)
    | some r =>
      rw [hloop] at hrun
      have hout := Option.some.inj hrun
      have hbase : consInv T dims
          (fun i => s i + -((initialScan T w s).impurityTotalAll / (initialScan T w s).weightTotalAll))
          (fun i => if i < T then
            s i + -((initialScan T w s).impurityTotalAll / (initialScan T w s).weightTotalAll)
            else s i)
          (fun b => if b < cSurfaceBinsOf T dims then 0 else imps b) := by
        intro i hi
        have := hzero (fun i => if i < T then
          s i + -((initialScan T w s).impurityTotalAll / (initialScan T w s).weightTotalAll)
          else s i) i hi
        simpa [if_pos hi] using this
      have hcons := purifyLoop_conserves T dims hpos w
        ((initialScan T w s).impurityMax * tol / (initialScan T w s).weightTotalAll)
        (fun i => s i + -((initialScan T w s).impurityTotalAll / (initialScan T w s).weightTotalAll))
        fuel none _ _ r hbase hloop
      intro i hi
      have := hcons i hi
      rw [← hout]
      simp only [Option.getD_some]
      linarith

/-- Claim C4 (zero-weight no-op): when the weights sum to exactly zero,
PurifyInternal returns success immediately, leaving the scores buffer, the
impurities buffer and the intercept slot exactly as they were (the pass loop
is never entered). -/
theorem purify_zero_weight (fuel T : ℕ) (tol : ℚ) (dims : List ℕ)
    (w s imps : ℕ → ℚ) (icept : Option ℚ)
    (hW : ∑ i ∈ Finset.range T, w i = 0) :
    PurifyInternal fuel T tol dims w s imps icept
      = some ⟨s, imps, icept, ErrorEbm.Error_None, none⟩ := by
  have hW2 : (initialScan T w s).weightTotalAll = 0 := by
    rw [initialScan_eq]; exact hW
  rw [PurifyInternal.eq_def]
  simp only []
  rw [if_pos hW2]

/-- Claim C5 (intercept extraction): with nonzero total weight and a non-null
intercept slot, PurifyInternal stores into the slot exactly the global
weighted mean of the original scores, and the whole per-dimension pass phase
runs on the scores with that mean already subtracted from every cell. -/
theorem purify_intercept (fuel T : ℕ) (tol : ℚ) (dims : List ℕ)
    (w s imps : ℕ → ℚ) (x0 : ℚ) (out : PurifyOut)
    (hW : ∑ i ∈ Finset.range T, w i ≠ 0)
    (hrun : PurifyInternal fuel T tol dims w s imps (some x0) = some out) :
    out.interceptOut
      = some ((∑ i ∈ Finset.range T, s i * w i) / ∑ i ∈ Finset.range T, w i)
    ∧ ∃ r : LoopResult,
        purifyLoop T dims w
          ((∑ i ∈ Finset.range T, |s i * w i|) * tol / ∑ i ∈ Finset.range T, w i)
          fuel none
          (fun i => if i < T then
            s i + -((∑ j ∈ Finset.range T, s j * w j) / ∑ j ∈ Finset.range T, w j)
            else s i)
          (fun b => if b < cSurfaceBinsOf T dims then 0 else imps b) = some r
        ∧ out.aScores = r.aScores ∧ out.aImpurities = r.aImpurities := by
  have hW2 : ¬ (initialScan T w s).weightTotalAll = 0 := by
    rw [initialScan_eq]; exact hW
  rw [PurifyInternal.eq_def] at hrun
  simp only [] at hrun
  rw [if_neg hW2] at hrun
  rw [initialScan_eq] at hrun
  dsimp only at hrun
  cases hloop : purifyLoop T dims w
      ((∑ i ∈ Finset.range T, |s i * w i|) * tol / ∑ i ∈ Finset.range T, w i)
      fuel none
      (fun i => if i < T then
        s i + -((∑ j ∈ Finset.range T, s j * w j) / ∑ j ∈ Finset.range T, w j)
        else s i)
      (fun b => if b < cSurfaceBinsOf T dims then 0 else imps b) with
  | none => rw [hloop] at hrun; exact absurd hrun (by simp)
  | some r =>
    rw [hloop] at hrun
    have hout := Option.some.inj hrun
    rw [← hout]
    exact ⟨rfl, r, rfl, rfl, rfl⟩

/-! ### Surface-bin decoding (claim C6) -/

/-- Shift of the accumulator out of the surface-bin counting fold. -/
theorem foldl_add_div_shift (T : ℕ) :
    ∀ (l : List ℕ) (a : ℕ),
      l.foldl (fun acc cBins => acc + T / cBins) a
        = a + l.foldl (fun acc cBins => acc + T / cBins) 0 := by
  intro l
  induction l with
  | nil => intro a; simp
  | cons c rest ih =>
    intro a
    rw [List.foldl_cons, List.foldl_cons, ih (a + T / c), ih (0 + T / c)]
    omega

/-- The surface-bin count of a shape splits off its first dimension. -/
theorem cSurfaceBinsOf_cons (T c : ℕ) (rest : List ℕ) :
    cSurfaceBinsOf T (c :: rest) = T / c + cSurfaceBinsOf T rest := by
  rw [cSurfaceBinsOf, cSurfaceBinsOf, List.foldl_cons,
    foldl_add_div_shift T rest (0 + T / c)]
  omega

/-- For a surface-bin id below the total surface-bin count, the sweep search
lands on a real dimension, reports the extent of that dimension, and leaves a
cross-section index below the surface-bin block size of that dimension. -/
theorem findSweep_spec (T : ℕ) :
    ∀ (dims : List ℕ) (b : ℕ), b < cSurfaceBinsOf T dims →
      (findSweep T dims b).iSweepDimension < dims.length
      ∧ dims.getD (findSweep T dims b).iSweepDimension 0 = (findSweep T dims b).cSweepBins
      ∧ (findSweep T dims b).iDimensionSurfaceBin < T / (findSweep T dims b).cSweepBins := by
  intro dims
  induction dims with
  | nil => intro b hb; simp [cSurfaceBinsOf] at hb
  | cons c rest ih =>
    intro b hb
    rw [cSurfaceBinsOf_cons] at hb
    rw [findSweep]
    by_cases hlt : b < T / c
    · rw [if_pos hlt]
      exact ⟨by simp, by simp, hlt⟩
    · rw [if_neg hlt]
      have hb2 : b - T / c < cSurfaceBinsOf T rest := by omega
      obtain ⟨h1, h2, h3⟩ := ih (b - T / c) hb2
      refine ⟨by simpa using Nat.succ_lt_succ h1, ?_, h3⟩
      simpa using h2

theorem prodExcept_mul :
    ∀ (dims : List ℕ) (d : ℕ), d < dims.length →
      prodExcept dims d * dims.getD d 0 = dims.prod := by
  intro dims
  induction dims with
  | nil => intro d hd; simp at hd
  | cons c rest ih =>
    intro d hd
    cases d with
    | zero =>
      show rest.prod * c = (c :: rest).prod
      rw [List.prod_cons]; ring
    | succ d =>
      show c * prodExcept rest d * rest.getD d 0 = (c :: rest).prod
      rw [mul_assoc, ih d (by simpa using Nat.lt_of_succ_lt_succ hd), List.prod_cons]

/-- Once the decoding loop has passed the sweep dimension, the residual is
divided by every remaining extent. -/
theorem tensorStartGo_snd_of_lt (sweep : ℕ) :
    ∀ (l : List ℕ) (j m u acc : ℕ), sweep < j →
      (tensorStartGo sweep l j m u acc).2 = u / l.prod := by
  intro l
  induction l with
  | nil => intro j m u acc hj; simp [tensorStartGo]
  | cons c rest ih =>
    intro j m u acc hj
    rw [tensorStartGo, if_neg (by omega)]
    rw [ih (j + 1) (m * c) (u / c) (acc + u % c * m) (by omega)]
    rw [Nat.div_div_eq_div_mul, List.prod_cons]

/-- The decoding loop divides the cross-section index by the product of all
extents except the extent of the sweep dimension. -/
theorem tensorStartGo_snd (sweep : ℕ) :
    ∀ (l : List ℕ) (j m u acc : ℕ), j ≤ sweep → sweep - j < l.length →
      (tensorStartGo sweep l j m u acc).2 = u / prodExcept l (sweep - j) := by
  intro l
  induction l with
  | nil => intro j m u acc hj hl; simp at hl
  | cons c rest ih =>
    intro j m u acc hj hl
    rw [tensorStartGo]
    by_cases hje : j = sweep
    · rw [if_pos hje]
      rw [tensorStartGo_snd_of_lt sweep rest (j + 1) (m * c) u acc (by omega)]
      have h0 : sweep - j = 0 := by omega
      rw [h0]
      rfl
    · rw [if_neg hje]
      have hj2 : j + 1 ≤ sweep := by omega
      have hl2 : sweep - (j + 1) < rest.length := by
        simp only [List.length_cons] at hl; omega
      rw [ih (j + 1) (m * c) (u / c) (acc + u % c * m) hj2 hl2]
      rw [Nat.div_div_eq_div_mul]
      have hsj : sweep - j = (sweep - (j + 1)) + 1 := by omega
      rw [hsj]
      rfl

/-- Claim C6 (surface-bin decoding soundness): for every shape of positive
extents whose product is the tensor bin count and every surface-bin id below
the surface-bin count, the mixed-radix decoding loop consumes the
cross-section index completely — the residual is exactly zero, so the
assertion at Purify.cpp line 123 never fails. -/
theorem decode_residual_zero (T : ℕ) (dims : List ℕ)
    (hpos : ∀ d ∈ dims, 0 < d) (hT : T = dims.prod)
    (b : ℕ) (hb : b < cSurfaceBinsOf T dims) :
    (tensorStart dims (findSweep T dims b).iSweepDimension
      (findSweep T dims b).iDimensionSurfaceBin).2 = 0 := by
  obtain ⟨hlen, hget, hu⟩ := findSweep_spec T dims b hb
  rw [tensorStart, tensorStartGo_snd (findSweep T dims b).iSweepDimension dims 0 1
    (findSweep T dims b).iDimensionSurfaceBin 0 (Nat.zero_le _) (by simpa using hlen)]
  rw [Nat.sub_zero]
  have hcb : 0 < (findSweep T dims b).cSweepBins := by
    rw [← hget]
    have hmem : dims.getD (findSweep T dims b).iSweepDimension 0 ∈ dims := by
      rw [List.getD_eq_getElem dims 0 hlen]
      exact List.getElem_mem hlen
    exact hpos _ hmem
  have hpe : prodExcept dims (findSweep T dims b).iSweepDimension
      * (findSweep T dims b).cSweepBins = T := by
    rw [← hget, prodExcept_mul dims _ hlen, hT]
  have hdiv := Nat.mul_div_cancel
    (prodExcept dims (findSweep T dims b).iSweepDimension) hcb
  rw [hpe] at hdiv
  rw [hdiv] at hu
  exact Nat.div_eq_of_lt hu

/-! ### Measured means in a non-retrying pass (claim C2) -/

/-- The retry flag after one surface bin: previous flag, or the measured
mean exceeds impurityMax. -/
theorem processBin_bRetry (T : ℕ) (dims : List ℕ) (w : ℕ → ℚ) (τ : ℚ)
    (st : PassState) (b : ℕ) :
    (processBin T dims w τ st b).bRetry
      = (st.bRetry || decide (τ < |sliceMean T dims w st.aScores b|)) := rfl

/-- In a pass that ends with the retry flag clear, the weighted mean of every surface bin — measured on the scores as they stood when that bin was
processed — has absolute value at most impurityMax. -/
theorem purifyPass_no_retry (T : ℕ) (dims : List ℕ) (w : ℕ → ℚ) (τ : ℚ)
    (s imps : ℕ → ℚ) :
    ∀ n, ((List.range n).foldl (processBin T dims w τ) ⟨s, imps, 0, false⟩).bRetry = false →
      ∀ b < n, |sliceMean T dims w
        (((List.range b).foldl (processBin T dims w τ) ⟨s, imps, 0, false⟩).aScores) b| ≤ τ := by
  intro n
  induction n with
  | zero => intro h b hb; omega
  | succ n ih =>
    intro h b hb
    rw [List.range_succ, List.foldl_append, List.foldl_cons, List.foldl_nil,
      processBin_bRetry] at h
    obtain ⟨h1, h2⟩ := Bool.or_eq_false_iff.mp h
    rcases Nat.lt_succ_iff_lt_or_eq.mp hb with hb2 | hb2
    · exact ih h1 b hb2
    · subst hb2
      exact le_of_not_lt (of_decide_eq_false h2)

/-- Claim C2, amended: when the pass loop returns, either it exited through
the monotonic non-improvement guard, or its final pass raised no retry flag,
and then the weighted mean of every slice measured at the moment that slice was
processed during that final pass had absolute value at most impurityMax.
(The mean of the final residual along a slice can exceed impurityMax, since
bins processed later in the same pass shift it; only the measured means are
bounded.) -/
theorem purifyLoop_exit_bounds (T : ℕ) (dims : List ℕ) (w : ℕ → ℚ) (τ : ℚ) :
    ∀ (fuel : ℕ) (prev : Option ℚ) (s imps : ℕ → ℚ) (r : LoopResult),
      purifyLoop T dims w τ fuel prev s imps = some r →
      r.exitedViaGuard = true ∨
      ∃ s0 imps0 : ℕ → ℚ,
        (purifyPass T dims w τ s0 imps0).bRetry = false ∧
        r.aScores = (purifyPass T dims w τ s0 imps0).aScores ∧
        ∀ b < cSurfaceBinsOf T dims,
          |sliceMean T dims w
            (((List.range b).foldl (processBin T dims w τ) ⟨s0, imps0, 0, false⟩).aScores) b| ≤ τ := by
  intro fuel
  induction fuel with
  | zero => intro prev s imps r h; simp [purifyLoop] at h
  | succ n ih =>
    intro prev s imps r h
    rw [purifyLoop] at h
    by_cases h1 : prevLe prev (purifyPass T dims w τ s imps).impurityCur = true
    · rw [if_pos h1] at h
      left
      rw [← Option.some.inj h]
    · rw [if_neg h1] at h
      by_cases h2 : (purifyPass T dims w τ s imps).bRetry = true
      · rw [if_pos h2] at h
        exact ih _ _ _ _ h
      · rw [if_neg h2] at h
        right
        have h3 : (purifyPass T dims w τ s imps).bRetry = false := by
          simpa using h2
        refine ⟨s, imps, h3, by rw [← Option.some.inj h], ?_⟩
        intro b hb
        exact purifyPass_no_retry T dims w τ s imps (cSurfaceBinsOf T dims) h3 b hb

/-! ### Already-pure input (claim C7) -/

/-- A pass over scores whose every slice weighted mean is exactly zero
changes nothing: every measured impurity is 0, no retry is flagged
(impurityMax is non-negative), and both buffers are returned unchanged. -/
theorem purifyPass_pure (T : ℕ) (dims : List ℕ) (hpos : ∀ d ∈ dims, 0 < d)
    (w : ℕ → ℚ) (τ : ℚ) (hτ : 0 ≤ τ) (s imps : ℕ → ℚ)
    (hpure : ∀ b < cSurfaceBinsOf T dims, sliceMean T dims w s b = 0) :
    purifyPass T dims w τ s imps = ⟨s, imps, 0, false⟩ := by
  have hstep : ∀ (st : PassState) (b : ℕ), b ∈ List.range (cSurfaceBinsOf T dims) →
      st = (⟨s, imps, 0, false⟩ : PassState) →
      processBin T dims w τ st b = (⟨s, imps, 0, false⟩ : PassState) := by
    intro st b hb hst
    subst hst
    have hb2 : b < cSurfaceBinsOf T dims := List.mem_range.mp hb
    have hm : sliceMean T dims w s b = 0 := hpure b hb2
    have hinc : 0 < (sliceInfo T dims b).cTensorIncrement :=
      findSweep_inc_pos T dims hpos b
    simp only [processBin, PassState.mk.injEq]
    refine ⟨?_, ?_, ?_, ?_⟩
    · funext i
      rw [foldl_update_sub_apply (sliceInfo T dims b).iTensor
        (sliceInfo T dims b).cTensorIncrement hinc (sliceMean T dims w s b)]
      simp [hm]
    · rw [hm, add_zero, Function.update_eq_self]
    · simp [hm]
    · simp [hm, decide_eq_false_iff_not, not_lt, hτ]
  have := foldl_invariant (fun st : PassState => st = (⟨s, imps, 0, false⟩ : PassState))
    (processBin T dims w τ) (List.range (cSurfaceBinsOf T dims))
    ⟨s, imps, 0, false⟩ rfl (fun a b hb ha => hstep a b hb ha)
  exact this

/-- The scaled threshold impurityMax is non-negative for a valid input. -/
theorem impurityMax_nonneg (T : ℕ) (tol : ℚ) (w s : ℕ → ℚ)
    (htol : 0 ≤ tol) (hw : ∀ i < T, 0 ≤ w i)
    (hW : ∑ i ∈ Finset.range T, w i ≠ 0) :
    0 ≤ (initialScan T w s).impurityMax * tol / (initialScan T w s).weightTotalAll := by
  rw [initialScan_eq]
  have h1 : (0:ℚ) ≤ ∑ i ∈ Finset.range T, |s i * w i| :=
    Finset.sum_nonneg (fun i _ => abs_nonneg _)
  have h2 : (0:ℚ) ≤ ∑ i ∈ Finset.range T, w i :=
    Finset.sum_nonneg (fun i hi => hw i (Finset.mem_range.mp hi))
  exact div_nonneg (mul_nonneg h1 htol) h2

/-- Claim C7, amended: on a valid input with nonzero total weight whose every
axis-aligned slice weighted mean is exactly zero, PurifyInternal performs
exactly one pass (any fuel of at least one suffices), leaves the scores
buffer unchanged, and leaves every accumulated impurity exactly zero (the
impurities buffer holds the zeroes written by the memset). -/
theorem purify_pure_input (fuel T : ℕ) (tol : ℚ) (dims : List ℕ)
    (w s imps : ℕ → ℚ)
    (hfuel : 1 ≤ fuel) (hpos : ∀ d ∈ dims, 0 < d) (htol : 0 ≤ tol)
    (hw : ∀ i < T, 0 ≤ w i) (hW : ∑ i ∈ Finset.range T, w i ≠ 0)
    (hpure : ∀ b < cSurfaceBinsOf T dims, sliceMean T dims w s b = 0) :
    PurifyInternal fuel T tol dims w s imps none
      = some ⟨s, fun b => if b < cSurfaceBinsOf T dims then 0 else imps b, none,
          ErrorEbm.Error_None, some false⟩ := by
  have hW2 : ¬ (initialScan T w s).weightTotalAll = 0 := by
    rw [initialScan_eq]; exact hW
  have hτ := impurityMax_nonneg T tol w s htol hw hW
  have hpass := purifyPass_pure T dims hpos w
    ((initialScan T w s).impurityMax * tol / (initialScan T w s).weightTotalAll) hτ s
    (fun b => if b < cSurfaceBinsOf T dims then 0 else imps b) hpure
  rw [PurifyInternal.eq_def]
  simp only []
  rw [if_neg hW2]
  cases fuel with
  | zero => omega
  | succ n =>
    rw [purifyLoop]
    rw [hpass]
    simp [prevLe]

/-! ### One-dimensional tensors (claim C8) -/

/-- Folding additions over a range is a range sum. -/
theorem foldl_add_eq_sum (g : ℕ → ℚ) :
    ∀ (n : ℕ) (a : ℚ),
      (List.range n).foldl (fun acc k => acc + g k) a
        = a + ∑ k ∈ Finset.range n, g k := by
  intro n
  induction n with
  | zero => intro a; simp
  | succ n ih =>
    intro a
    rw [List.range_succ, List.foldl_append, List.foldl_cons, List.foldl_nil, ih,
      Finset.sum_range_succ]
    ring

/-- A 1-D shape has exactly one surface bin. -/
theorem cSurfaceBinsOf_one_dim (n : ℕ) (hn : 0 < n) : cSurfaceBinsOf n [n] = 1 := by
  rw [cSurfaceBinsOf_cons, Nat.div_self hn]
  rfl

/-- The single surface bin of a 1-D shape is the whole vector with stride 1. -/
theorem sliceInfo_one_dim (n : ℕ) (hn : 0 < n) :
    sliceInfo n [n] 0 = ⟨0, 1, n⟩ := by
  have h1 : n / n = 1 := Nat.div_self hn
  simp [sliceInfo, findSweep, tensorStart, tensorStartGo, h1]

theorem sliceWeightTotal_one_dim (n : ℕ) (hn : 0 < n) (w : ℕ → ℚ) :
    sliceWeightTotal n [n] w 0 = ∑ k ∈ Finset.range n, w k := by
  rw [sliceWeightTotal, sliceInfo_one_dim n hn]
  rw [show ((⟨0, 1, n⟩ : SliceInfo).cSweepBins) = n from rfl]
  have := foldl_add_eq_sum (fun k => w ((⟨0, 1, n⟩ : SliceInfo).iTensor
    + (⟨0, 1, n⟩ : SliceInfo).cTensorIncrement * k)) n 0
  rw [this]
  simp

theorem sliceImpuritySum_one_dim (n : ℕ) (hn : 0 < n) (w s : ℕ → ℚ) :
    sliceImpuritySum n [n] w s 0 = ∑ k ∈ Finset.range n, s k * w k := by
  rw [sliceImpuritySum, sliceInfo_one_dim n hn]
  rw [show ((⟨0, 1, n⟩ : SliceInfo).cSweepBins) = n from rfl]
  have := foldl_add_eq_sum (fun k => s ((⟨0, 1, n⟩ : SliceInfo).iTensor
      + (⟨0, 1, n⟩ : SliceInfo).cTensorIncrement * k)
    * w ((⟨0, 1, n⟩ : SliceInfo).iTensor
      + (⟨0, 1, n⟩ : SliceInfo).cTensorIncrement * k)) n 0
  rw [this]
  simp

/-- The weighted mean of the single 1-D slice. -/
theorem sliceMean_one_dim (n : ℕ) (hn : 0 < n) (w s : ℕ → ℚ) :
    sliceMean n [n] w s 0
      = if (∑ k ∈ Finset.range n, w k) = 0 then 0
        else (∑ k ∈ Finset.range n, s k * w k) / (∑ k ∈ Finset.range n, w k) := by
  rw [sliceMean, sliceWeightTotal_one_dim n hn, sliceImpuritySum_one_dim n hn]

/-- One surface-bin step of a 1-D pass, in closed form. -/
theorem processBin_one_dim (n : ℕ) (hn : 0 < n) (w : ℕ → ℚ) (τ : ℚ)
    (st : PassState) :
    processBin n [n] w τ st 0 =
      ⟨fun i => if i < n then st.aScores i - sliceMean n [n] w st.aScores 0
          else st.aScores i,
        Function.update st.aImpurities 0
          (st.aImpurities 0 + sliceMean n [n] w st.aScores 0),
        st.impurityCur + |sliceMean n [n] w st.aScores 0|,
        st.bRetry || decide (τ < |sliceMean n [n] w st.aScores 0|)⟩ := by
  simp only [processBin, PassState.mk.injEq, sliceInfo_one_dim n hn]
  refine ⟨?_, trivial, trivial, trivial⟩
  funext i
  have hfold := foldl_update_sub_apply 0 1 one_pos
    (sliceMean n [n] w st.aScores 0) n st.aScores i
  rw [hfold]
  have hiff : (∃ k, k < n ∧ 0 + 1 * k = i) ↔ i < n := by
    constructor
    · rintro ⟨k, hk, he⟩; omega
    · intro hi; exact ⟨i, hi, by omega⟩
  rw [if_congr hiff rfl rfl]

/-- The 1-D pass is the single surface-bin step. -/
theorem purifyPass_one_dim (n : ℕ) (hn : 0 < n) (w : ℕ → ℚ) (τ : ℚ)
    (s imps : ℕ → ℚ) :
    purifyPass n [n] w τ s imps = processBin n [n] w τ ⟨s, imps, 0, false⟩ 0 := by
  rw [purifyPass, cSurfaceBinsOf_one_dim n hn]
  rfl

/-- After subtracting the 1-D weighted mean, the 1-D weighted mean is zero. -/
theorem sliceMean_after_sub (n : ℕ) (hn : 0 < n) (w s : ℕ → ℚ)
    (hW : ∑ k ∈ Finset.range n, w k ≠ 0) :
    sliceMean n [n] w
      (fun i => if i < n then s i - sliceMean n [n] w s 0 else s i) 0 = 0 := by
  rw [sliceMean_one_dim n hn, if_neg hW]
  rw [sliceMean_one_dim n hn, if_neg hW]
  have hnum : ∑ k ∈ Finset.range n,
      (if k < n then s k - (∑ j ∈ Finset.range n, s j * w j) / (∑ j ∈ Finset.range n, w j)
        else s k) * w k = 0 := by
    have hcong : ∀ k ∈ Finset.range n,
        (if k < n then s k - (∑ j ∈ Finset.range n, s j * w j) / (∑ j ∈ Finset.range n, w j)
          else s k) * w k
        = s k * w k
          - (∑ j ∈ Finset.range n, s j * w j) / (∑ j ∈ Finset.range n, w j) * w k := by
      intro k hk
      rw [if_pos (Finset.mem_range.mp hk)]
      ring
    rw [Finset.sum_congr rfl hcong, Finset.sum_sub_distrib, ← Finset.mul_sum,
      div_mul_cancel₀ _ hW, sub_self]
  rw [hnum, zero_div]

/-- The 1-D pass loop finishes within two passes: the first pass subtracts
the weighted mean, a second pass (needed only when the mean exceeded
impurityMax) measures an exactly zero mean and stops. -/
theorem purifyLoop_one_dim (n : ℕ) (hn : 0 < n) (w : ℕ → ℚ) (τ : ℚ) (hτ : 0 ≤ τ)
    (s imps : ℕ → ℚ) (hW : ∑ k ∈ Finset.range n, w k ≠ 0) (m : ℕ) :
    ∃ r : LoopResult,
      purifyLoop n [n] w τ (m + 2) none s imps = some r ∧
      (∀ i < n, r.aScores i
        = s i - (∑ j ∈ Finset.range n, s j * w j) / (∑ j ∈ Finset.range n, w j)) ∧
      r.aImpurities 0
        = imps 0 + (∑ j ∈ Finset.range n, s j * w j) / (∑ j ∈ Finset.range n, w j) := by
  have hμ : sliceMean n [n] w s 0
      = (∑ j ∈ Finset.range n, s j * w j) / (∑ j ∈ Finset.range n, w j) := by
    rw [sliceMean_one_dim n hn, if_neg hW]
  by_cases hr : τ < |sliceMean n [n] w s 0|
  · -- the first pass flags a retry; the second pass measures mean 0 and stops
    have h2 : 0 < |sliceMean n [n] w s 0| := lt_of_le_of_lt hτ hr
    have hm2 : sliceMean n [n] w
        (fun i => if i < n then s i - sliceMean n [n] w s 0 else s i) 0 = 0 :=
      sliceMean_after_sub n hn w s hW
    have hloop : purifyLoop n [n] w τ (m + 2) none s imps
        = some ⟨fun i => if i < n then
              (if i < n then s i - sliceMean n [n] w s 0 else s i) - 0
              else (if i < n then s i - sliceMean n [n] w s 0 else s i),
            Function.update
              (Function.update imps 0 (imps 0 + sliceMean n [n] w s 0)) 0
              (Function.update imps 0 (imps 0 + sliceMean n [n] w s 0) 0 + 0),
            false⟩ := by
      rw [purifyLoop, purifyPass_one_dim n hn, processBin_one_dim n hn]
      simp only [prevLe, Bool.false_or, if_false, Bool.false_eq_true]
      rw [if_pos (by simpa using hr)]
      rw [purifyLoop, purifyPass_one_dim n hn, processBin_one_dim n hn]
      rw [hm2]
      have hprev : prevLe (some (0 + |sliceMean n [n] w s 0|)) (0 + |(0:ℚ)|) = false := by
        simp only [prevLe, decide_eq_false_iff_not]
        simp only [abs_zero, add_zero, zero_add, not_le]
        exact h2
      rw [hprev]
      simp only [Bool.false_eq_true, if_false, Bool.false_or]
      have hb2 : decide (τ < |(0:ℚ)|) = false := by
        simp only [abs_zero, decide_eq_false_iff_not, not_lt]
        exact hτ
      rw [hb2]
      simp
    refine ⟨_, hloop, ?_, ?_⟩
    · intro i hi
      simp only [if_pos hi, sub_zero, hμ]
    · simp only [Function.update_same, add_zero, hμ]
  · -- the first pass raises no retry flag and the loop stops at once
    have hloop : purifyLoop n [n] w τ (m + 2) none s imps
        = some ⟨fun i => if i < n then s i - sliceMean n [n] w s 0 else s i,
            Function.update imps 0 (imps 0 + sliceMean n [n] w s 0),
            false⟩ := by
      rw [purifyLoop, purifyPass_one_dim n hn, processBin_one_dim n hn]
      simp only [prevLe, Bool.false_or, if_false, Bool.false_eq_true]
      rw [decide_eq_false hr]
      simp
    refine ⟨_, hloop, ?_, ?_⟩
    · intro i hi
      simp only [if_pos hi, hμ]
    · simp only [Function.update_same, hμ]

/-- Claim C8, amended: for a genuinely one-dimensional tensor (shape [n]),
with non-negative weights of nonzero total and non-negative tolerance,
PurifyInternal reduces to a single weighted-mean subtraction: any fuel of at
least two passes suffices (the second pass only confirms convergence when
the mean exceeded impurityMax), every cell of the output equals the input
score minus the weighted mean, and the single surface bin accumulates
exactly that mean.  (With additional extent-1 dimensions present this
fails: their singleton slices absorb the scores themselves.) -/
theorem purify_one_dim (fuel n : ℕ) (tol : ℚ) (w s imps : ℕ → ℚ)
    (hfuel : 2 ≤ fuel) (hn : 0 < n) (htol : 0 ≤ tol)
    (hw : ∀ i < n, 0 ≤ w i) (hW : ∑ i ∈ Finset.range n, w i ≠ 0) :
    ∃ out : PurifyOut,
      PurifyInternal fuel n tol [n] w s imps none = some out ∧
      (∀ i < n, out.aScores i
        = s i - (∑ j ∈ Finset.range n, s j * w j) / (∑ j ∈ Finset.range n, w j)) ∧
      out.aImpurities 0
        = (∑ j ∈ Finset.range n, s j * w j) / (∑ j ∈ Finset.range n, w j) := by
  have hW2 : ¬ (initialScan n w s).weightTotalAll = 0 := by
    rw [initialScan_eq]; exact hW
  have hτ := impurityMax_nonneg n tol w s htol hw hW
  obtain ⟨m, rfl⟩ : ∃ m, fuel = m + 2 := ⟨fuel - 2, by omega⟩
  obtain ⟨r, hloop, hsc, him⟩ := purifyLoop_one_dim n hn w
    ((initialScan n w s).impurityMax * tol / (initialScan n w s).weightTotalAll) hτ s
    (fun b => if b < cSurfaceBinsOf n [n] then 0 else imps b) hW m
  refine ⟨⟨r.aScores, r.aImpurities, none, ErrorEbm.Error_None, some r.exitedViaGuard⟩,
    ?_, ?_, ?_⟩
  · rw [PurifyInternal.eq_def]
    simp only []
    rw [if_neg hW2]
    rw [hloop]
  · intro i hi
    exact hsc i hi
  · dsimp only
    rw [him]
    have h0 : (if 0 < cSurfaceBinsOf n [n] then (0:ℚ) else imps 0) = 0 := by
      rw [if_pos (by rw [cSurfaceBinsOf_one_dim n hn]; norm_num)]
    rw [h0, zero_add]

/-! ### Shim error taxonomy and trivial paths (claims C9, C10) -/

/-- Claim C9, amended: a call to the shim with a dimension count exceeding
the supported maximum k_cDimensionsMax is rejected and classified as an
out-of-memory (resource-exhaustion) error, not as an invalid-argument
error. -/
theorem Purify_excessive_dimensions (cDimensionsMax sizeMax fuel : ℕ) (tol : ℚ)
    (cd : ℤ) (dl : Option (List ℤ)) (w s imp : Option (ℕ → ℚ)) (bi : Bool)
    (r : ShimOut)
    (hcd : (cDimensionsMax : ℤ) < cd)
    (hrun : Purify cDimensionsMax sizeMax fuel tol cd dl w s imp bi = some r) :
    r.error = ErrorEbm.Error_OutOfMemory
      ∧ r.error ≠ ErrorEbm.Error_IllegalParamVal := by
  have hpos : ¬ cd ≤ 0 := by omega
  rw [Purify.eq_def] at hrun
  simp only [] at hrun
  rw [if_neg hpos, if_pos hcd] at hrun
  have := Option.some.inj hrun
  rw [← this]
  exact ⟨rfl, by simp⟩

/-- Claim C10 (implicit): trivial-success paths skip buffer validation.
With countDimensions = 0, or with non-negative dimension lengths of which
at least one is zero, the shim returns success without touching the weights,
scores or impurities buffers — even null (none) buffers are accepted,
because the null checks sit after these early returns.  The intercept slot,
when requested, still holds the zero written at entry. -/
theorem Purify_trivial_success (cDimensionsMax sizeMax fuel : ℕ) (tol : ℚ)
    (bi : Bool) :
    (∀ cd : ℤ, cd = 0 →
      Purify cDimensionsMax sizeMax fuel tol cd none none none none bi
        = some ⟨ErrorEbm.Error_None, none, none, if bi then some 0 else none⟩)
    ∧ (∀ (cd : ℤ) (dl : List ℤ), 0 < cd → cd ≤ (cDimensionsMax : ℤ) →
        dl.length = cd.toNat → (∀ d ∈ dl, 0 ≤ d) → (∃ d ∈ dl, d = 0) →
        Purify cDimensionsMax sizeMax fuel tol cd (some dl) none none none bi
          = some ⟨ErrorEbm.Error_None, none, none, if bi then some 0 else none⟩) := by
  constructor
  · intro cd hcd
    subst hcd
    rw [Purify.eq_def]
    simp only []
    simp
  · intro cd dl hpos hmax hlen hnn hzero
    rw [Purify.eq_def]
    simp only []
    rw [if_neg (by omega), if_neg (by omega)]
    have hneg : dl.any (fun d => decide (d < 0)) = false := by
      rw [List.any_eq_false]
      intro d hd
      simp only [decide_eq_true_eq]
      exact not_lt.mpr (hnn d hd)
    have hzer : dl.any (fun d => decide (d = 0)) = true := by
      rw [List.any_eq_true]
      obtain ⟨d, hd, hdz⟩ := hzero
      exact ⟨d, hd, by simp [hdz]⟩
    rw [hneg]
    simp only [Bool.false_eq_true, if_false]
    rw [hzer]
    simp

/-! ### Helpers for concrete instances -/

/-- Absolute value of a rational in branch form (lets concrete absolute
values evaluate by case analysis on the sign). -/
theorem rat_abs_eq (q : ℚ) : |q| = if q < 0 then -q else q := by
  rcases lt_or_le q 0 with h | h
  · rw [if_pos h, abs_of_neg h]
  · rw [if_neg (not_lt.mpr h), abs_of_nonneg h]

/-- An option known to hold a value equals some of its projection. -/
theorem Option_eq_some_getD {α : Type} (o : Option α) (d : α)
    (h : o.isSome = true) : o = some (o.getD d) := by
  cases o with
  | none => exact absurd h (by simp)
  | some x => rfl

/-- Witness for claim C4: an all-zero weight vector on a 1-D tensor of two
cells; the call returns immediately with every buffer untouched. -/
theorem purify_zero_weight_witness :
    (∑ i ∈ Finset.range 2, listFn [0, 0] i = 0)
    ∧ PurifyInternal 1 2 0 [2] (listFn [0, 0]) (listFn [1, 2]) (listFn []) (some 5)
        = some ⟨listFn [1, 2], listFn [], some 5, ErrorEbm.Error_None, none⟩ :=
  ⟨by norm_num [listFn, Finset.sum_range_succ],
    purify_zero_weight 1 2 0 [2] (listFn [0, 0]) (listFn [1, 2]) (listFn []) (some 5)
      (by norm_num [listFn, Finset.sum_range_succ])⟩

/-- Witness for claim C6: shape [2,2] and the last surface-bin id 3; the
decoding residual is zero. -/
theorem decode_residual_zero_witness :
    ((∀ d ∈ [2, 2], 0 < d) ∧ (4:ℕ) = [2, 2].prod ∧ 3 < cSurfaceBinsOf 4 [2, 2])
    ∧ (tensorStart [2, 2] (findSweep 4 [2, 2] 3).iSweepDimension
        (findSweep 4 [2, 2] 3).iDimensionSurfaceBin).2 = 0 :=
  ⟨⟨by decide, by decide, by decide⟩,
    decode_residual_zero 4 [2, 2] (by decide) (by decide) 3 (by decide)⟩

/-- Witness for the amended claim C9: with k_cDimensionsMax = 2, a call with
countDimensions = 3 is classified out-of-memory. -/
theorem Purify_excessive_dimensions_witness :
    (((2:ℕ) : ℤ) < 3)
    ∧ ((Purify 2 1000 1 0 3 none none none none false).getD defaultShimOut).error
        = ErrorEbm.Error_OutOfMemory :=
  ⟨by decide,
    (Purify_excessive_dimensions 2 1000 1 0 3 none none none none false
      ((Purify 2 1000 1 0 3 none none none none false).getD defaultShimOut)
      (by decide) (Option_eq_some_getD _ _ (by rfl))).1⟩

/-- Counterexample for claim C9 as stated: with k_cDimensionsMax = 2 and
countDimensions = 3, the shim reports Error_OutOfMemory, which is not the
invalid-argument error class the claim asserts. -/
theorem Purify_excessive_dimensions_cex :
    (Purify 2 1000 1 0 3 none none none none false).map ShimOut.error
      = some ErrorEbm.Error_OutOfMemory
    ∧ (Purify 2 1000 1 0 3 none none none none false).map ShimOut.error
      ≠ some ErrorEbm.Error_IllegalParamVal :=
  ⟨rfl, by decide⟩

/-- Witness for claim C10: both trivial-success paths at concrete inputs,
with all three buffers null. -/
theorem Purify_trivial_success_witness :
    Purify 4 100 1 0 0 none none none none true
      = some ⟨ErrorEbm.Error_None, none, none, if true then some 0 else none⟩
    ∧ ((0:ℤ) < 2 ∧ (2:ℤ) ≤ ((4:ℕ) : ℤ) ∧ ([3, 0] : List ℤ).length = (2:ℤ).toNat
        ∧ (∀ d ∈ ([3, 0] : List ℤ), 0 ≤ d) ∧ (∃ d ∈ ([3, 0] : List ℤ), d = 0))
    ∧ Purify 4 100 1 0 2 (some [3, 0]) none none none true
      = some ⟨ErrorEbm.Error_None, none, none, if true then some 0 else none⟩ :=
  ⟨(Purify_trivial_success 4 100 1 0 true).1 0 rfl,
    ⟨by decide, by decide, by decide, by decide, by decide⟩,
    (Purify_trivial_success 4 100 1 0 true).2 2 [3, 0] (by decide) (by decide) (by decide)
      (by decide) (by decide)⟩

/-- Witness for the amended claim C8: the 1-D tensor [3] with weights
[1,2,1], scores [1,3,9] and tolerance 0. -/
theorem purify_one_dim_witness :
    ((2:ℕ) ≤ 2 ∧ (0:ℕ) < 3 ∧ (0:ℚ) ≤ 0 ∧ (∀ i < 3, (0:ℚ) ≤ listFn [1, 2, 1] i)
      ∧ (∑ i ∈ Finset.range 3, listFn [1, 2, 1] i ≠ 0))
    ∧ ∃ out : PurifyOut,
        PurifyInternal 2 3 0 [3] (listFn [1, 2, 1]) (listFn [1, 3, 9]) (listFn []) none
          = some out ∧
        (∀ i < 3, out.aScores i
          = listFn [1, 3, 9] i
            - (∑ j ∈ Finset.range 3, listFn [1, 3, 9] j * listFn [1, 2, 1] j)
              / (∑ j ∈ Finset.range 3, listFn [1, 2, 1] j)) ∧
        out.aImpurities 0
          = (∑ j ∈ Finset.range 3, listFn [1, 3, 9] j * listFn [1, 2, 1] j)
            / (∑ j ∈ Finset.range 3, listFn [1, 2, 1] j) :=
  ⟨⟨le_refl 2, by norm_num, le_refl 0,
      by intro i hi; interval_cases i <;> norm_num [listFn],
      by norm_num [listFn, Finset.sum_range_succ]⟩,
    purify_one_dim 2 3 0 (listFn [1, 2, 1]) (listFn [1, 3, 9]) (listFn [])
      (le_refl 2) (by norm_num) (le_refl 0)
      (by intro i hi; interval_cases i <;> norm_num [listFn])
      (by norm_num [listFn, Finset.sum_range_succ])⟩

/-- Counterexample for claim C8 as stated: the shape [1,2] has extent 1 in
all but one dimension and nonzero total weight, yet the output is not
score minus weighted mean — the singleton slices of the extent-1 dimension
absorb the scores, leaving zeroes. -/
theorem purify_one_dim_cex :
    ((∑ i ∈ Finset.range 2, listFn [1, 1] i ≠ 0)
      ∧ (PurifyInternal 3 2 10 [1, 2] (listFn [1, 1]) (listFn [1, 3]) (listFn [])
          none).isSome = true)
    ∧ ((PurifyInternal 3 2 10 [1, 2] (listFn [1, 1]) (listFn [1, 3]) (listFn [])
          none).getD defaultPurifyOut).aScores 0 = 0
    ∧ ((PurifyInternal 3 2 10 [1, 2] (listFn [1, 1]) (listFn [1, 3]) (listFn [])
          none).getD defaultPurifyOut).aScores 0
        ≠ listFn [1, 3] 0
          - (∑ j ∈ Finset.range 2, listFn [1, 3] j * listFn [1, 1] j)
            / (∑ j ∈ Finset.range 2, listFn [1, 1] j) := by
  have hr1 : List.range 1 = [0] := by decide
  have hr2 : List.range 2 = [0, 1] := by decide
  have hr3 : List.range 3 = [0, 1, 2] := by decide
  refine ⟨⟨?_, ?_⟩, ?_, ?_⟩ <;>
    norm_num [PurifyInternal, purifyLoop, purifyPass, processBin, sliceMean,
      sliceWeightTotal, sliceImpuritySum, sliceInfo, findSweep, tensorStart,
      tensorStartGo, cSurfaceBinsOf, initialScan, prevLe, listFn, hr1, hr2, hr3,
      Function.update_apply, rat_abs_eq, Finset.sum_range_succ]

/-- Witness for claim C5: 1-D tensor [2], weights [1,1], scores [1,3],
intercept requested; the intercept slot receives the weighted mean 2. -/
theorem purify_intercept_witness :
    (∑ i ∈ Finset.range 2, listFn [1, 1] i ≠ 0)
    ∧ ((PurifyInternal 2 2 0 [2] (listFn [1, 1]) (listFn [1, 3]) (listFn [])
        (some 0)).getD defaultPurifyOut).interceptOut
      = some ((∑ i ∈ Finset.range 2, listFn [1, 3] i * listFn [1, 1] i)
          / ∑ i ∈ Finset.range 2, listFn [1, 1] i) := by
  have hsum : ∑ i ∈ Finset.range 2, listFn [1, 1] i ≠ 0 := by
    norm_num [listFn, Finset.sum_range_succ]
  have his : (PurifyInternal 2 2 0 [2] (listFn [1, 1]) (listFn [1, 3]) (listFn [])
      (some 0)).isSome = true := by
    have hr1 : List.range 1 = [0] := by decide
    have hr2 : List.range 2 = [0, 1] := by decide
    norm_num [PurifyInternal, purifyLoop, purifyPass, processBin, sliceMean,
      sliceWeightTotal, sliceImpuritySum, sliceInfo, findSweep, tensorStart,
      tensorStartGo, cSurfaceBinsOf, initialScan, prevLe, listFn, hr1, hr2,
      Function.update_apply, rat_abs_eq, Finset.sum_range_succ]
  exact ⟨hsum,
    (purify_intercept 2 2 0 [2] (listFn [1, 1]) (listFn [1, 3]) (listFn []) 0
      ((PurifyInternal 2 2 0 [2] (listFn [1, 1]) (listFn [1, 3]) (listFn [])
        (some 0)).getD defaultPurifyOut) hsum
      (Option_eq_some_getD _ _ his)).1⟩

/-- Witness for the amended claim C7: the 2x2 tensor [1,-1,-1,1] with unit
weights has every slice weighted mean exactly zero; one pass leaves it
unchanged. -/
theorem purify_pure_input_witness :
    ((1:ℕ) ≤ 1 ∧ (∀ d ∈ [2, 2], 0 < d) ∧ (0:ℚ) ≤ 1
      ∧ (∀ i < 4, (0:ℚ) ≤ listFn [1, 1, 1, 1] i)
      ∧ (∑ i ∈ Finset.range 4, listFn [1, 1, 1, 1] i ≠ 0)
      ∧ (∀ b < cSurfaceBinsOf 4 [2, 2],
          sliceMean 4 [2, 2] (listFn [1, 1, 1, 1]) (listFn [1, -1, -1, 1]) b = 0))
    ∧ PurifyInternal 1 4 1 [2, 2] (listFn [1, 1, 1, 1]) (listFn [1, -1, -1, 1])
        (listFn []) none
      = some ⟨listFn [1, -1, -1, 1],
          fun b => if b < cSurfaceBinsOf 4 [2, 2] then 0 else listFn [] b, none,
          ErrorEbm.Error_None, some false⟩ := by
  have hr2 : List.range 2 = [0, 1] := by decide
  have hcs : cSurfaceBinsOf 4 [2, 2] = 4 := by decide
  have hpure : ∀ b < cSurfaceBinsOf 4 [2, 2],
      sliceMean 4 [2, 2] (listFn [1, 1, 1, 1]) (listFn [1, -1, -1, 1]) b = 0 := by
    rw [hcs]
    intro b hb
    interval_cases b <;>
      norm_num [sliceMean, sliceWeightTotal, sliceImpuritySum, sliceInfo, findSweep,
        tensorStart, tensorStartGo, listFn, hr2]
  refine ⟨⟨le_refl 1, by decide, by norm_num, ?_, ?_, hpure⟩, ?_⟩
  · intro i hi; interval_cases i <;> norm_num [listFn]
  · norm_num [listFn, Finset.sum_range_succ]
  · exact purify_pure_input 1 4 1 [2, 2] (listFn [1, 1, 1, 1]) (listFn [1, -1, -1, 1])
      (listFn []) (le_refl 1) (by decide) (by norm_num)
      (by intro i hi; interval_cases i <;> norm_num [listFn])
      (by norm_num [listFn, Finset.sum_range_succ]) hpure

/-- Counterexample for claim C7 as stated: a 2x2 tensor whose every slice
weighted mean is within impurityMax, yet the algorithm needs a second pass
(fuel 1 is exhausted) and changes the scores. -/
theorem purify_pure_input_cex :
    (∀ b < cSurfaceBinsOf 4 [2, 2],
        |sliceMean 4 [2, 2] (listFn [5, 5, 1, 5]) (listFn [1, -2, 4, -1]) b|
          ≤ (∑ i ∈ Finset.range 4, |listFn [1, -2, 4, -1] i * listFn [5, 5, 1, 5] i|) * 1
            / ∑ i ∈ Finset.range 4, listFn [5, 5, 1, 5] i)
    ∧ (PurifyInternal 1 4 1 [2, 2] (listFn [5, 5, 1, 5]) (listFn [1, -2, 4, -1])
        (listFn []) none).isNone = true
    ∧ ((PurifyInternal 2 4 1 [2, 2] (listFn [5, 5, 1, 5]) (listFn [1, -2, 4, -1])
        (listFn []) none).getD defaultPurifyOut).aScores 0
      ≠ listFn [1, -2, 4, -1] 0 := by
  have hr2 : List.range 2 = [0, 1] := by decide
  have hr4 : List.range 4 = [0, 1, 2, 3] := by decide
  have hcs : cSurfaceBinsOf 4 [2, 2] = 4 := by decide
  refine ⟨?_, ?_, ?_⟩
  · rw [hcs]
    intro b hb
    interval_cases b <;>
      norm_num [sliceMean, sliceWeightTotal, sliceImpuritySum, sliceInfo, findSweep,
        tensorStart, tensorStartGo, listFn, hr2, rat_abs_eq, Finset.sum_range_succ]
  · norm_num [PurifyInternal, purifyLoop, purifyPass, processBin, sliceMean,
      sliceWeightTotal, sliceImpuritySum, sliceInfo, findSweep, tensorStart,
      tensorStartGo, cSurfaceBinsOf, initialScan, prevLe, listFn, hr2, hr4,
      Function.update_apply, rat_abs_eq, Finset.sum_range_succ]
  · norm_num [PurifyInternal, purifyLoop, purifyPass, processBin, sliceMean,
      sliceWeightTotal, sliceImpuritySum, sliceInfo, findSweep, tensorStart,
      tensorStartGo, cSurfaceBinsOf, initialScan, prevLe, listFn, hr2, hr4,
      Function.update_apply, rat_abs_eq, Finset.sum_range_succ]

/-- Witness for claim C1: the 2x2 example from the specification — unit weights,
scores [1,2,3,4], tolerance 0, intercept requested. -/
theorem purify_conservation_witness :
    ((∀ d ∈ [2, 2], 0 < d) ∧ (4:ℕ) = [2, 2].prod
      ∧ (∀ i < 4, (0:ℚ) ≤ listFn [1, 1, 1, 1] i)
      ∧ (∑ i ∈ Finset.range 4, listFn [1, 1, 1, 1] i ≠ 0))
    ∧ ∀ i < 4, listFn [1, 2, 3, 4] i
        = ((PurifyInternal 3 4 0 [2, 2] (listFn [1, 1, 1, 1]) (listFn [1, 2, 3, 4])
              (listFn []) (some 0)).getD defaultPurifyOut).aScores i
          + ((PurifyInternal 3 4 0 [2, 2] (listFn [1, 1, 1, 1]) (listFn [1, 2, 3, 4])
              (listFn []) (some 0)).getD defaultPurifyOut).interceptOut.getD 0
          + ∑ b ∈ Finset.range (cSurfaceBinsOf 4 [2, 2]),
              (if sliceContains 4 [2, 2] b i
                then ((PurifyInternal 3 4 0 [2, 2] (listFn [1, 1, 1, 1])
                    (listFn [1, 2, 3, 4]) (listFn []) (some 0)).getD
                    defaultPurifyOut).aImpurities b
                else 0) := by
  have his : (PurifyInternal 3 4 0 [2, 2] (listFn [1, 1, 1, 1]) (listFn [1, 2, 3, 4])
      (listFn []) (some 0)).isSome = true := by
    have hr2 : List.range 2 = [0, 1] := by decide
    have hr3 : List.range 3 = [0, 1, 2] := by decide
    have hr4 : List.range 4 = [0, 1, 2, 3] := by decide
    norm_num [PurifyInternal, purifyLoop, purifyPass, processBin, sliceMean,
      sliceWeightTotal, sliceImpuritySum, sliceInfo, findSweep, tensorStart,
      tensorStartGo, cSurfaceBinsOf, initialScan, prevLe, listFn, hr2, hr3, hr4,
      Function.update_apply, rat_abs_eq, Finset.sum_range_succ]
  refine ⟨⟨by decide, by decide, ?_, ?_⟩, ?_⟩
  · intro i hi; interval_cases i <;> norm_num [listFn]
  · norm_num [listFn, Finset.sum_range_succ]
  · exact purify_conservation 3 4 0 [2, 2] (listFn [1, 1, 1, 1]) (listFn [1, 2, 3, 4])
      (listFn []) (some 0) (by decide) (by decide)
      (by intro i hi; interval_cases i <;> norm_num [listFn])
      (by norm_num [listFn, Finset.sum_range_succ])
      ((PurifyInternal 3 4 0 [2, 2] (listFn [1, 1, 1, 1]) (listFn [1, 2, 3, 4])
        (listFn []) (some 0)).getD defaultPurifyOut)
      (Option_eq_some_getD _ _ his)

/-- Witness for the amended claim C2: a 2x2 run with a large impurityMax,
whose single pass raises no retry flag. -/
theorem purifyLoop_exit_bounds_witness :
    (purifyLoop 4 [2, 2] (listFn [1, 1, 1, 1]) 10 2 none (listFn [1, 2, 3, 4])
        (listFn [])).isSome = true
    ∧ (((purifyLoop 4 [2, 2] (listFn [1, 1, 1, 1]) 10 2 none (listFn [1, 2, 3, 4])
          (listFn [])).getD ⟨listFn [], listFn [], false⟩).exitedViaGuard = true
      ∨ ∃ s0 imps0 : ℕ → ℚ,
          (purifyPass 4 [2, 2] (listFn [1, 1, 1, 1]) 10 s0 imps0).bRetry = false ∧
          ((purifyLoop 4 [2, 2] (listFn [1, 1, 1, 1]) 10 2 none (listFn [1, 2, 3, 4])
              (listFn [])).getD ⟨listFn [], listFn [], false⟩).aScores
            = (purifyPass 4 [2, 2] (listFn [1, 1, 1, 1]) 10 s0 imps0).aScores ∧
          ∀ b < cSurfaceBinsOf 4 [2, 2],
            |sliceMean 4 [2, 2] (listFn [1, 1, 1, 1])
              (((List.range b).foldl (processBin 4 [2, 2] (listFn [1, 1, 1, 1]) 10)
                ⟨s0, imps0, 0, false⟩).aScores) b| ≤ 10) := by
  have his : (purifyLoop 4 [2, 2] (listFn [1, 1, 1, 1]) 10 2 none (listFn [1, 2, 3, 4])
      (listFn [])).isSome = true := by
    have hr2 : List.range 2 = [0, 1] := by decide
    have hr4 : List.range 4 = [0, 1, 2, 3] := by decide
    norm_num [purifyLoop, purifyPass, processBin, sliceMean, sliceWeightTotal,
      sliceImpuritySum, sliceInfo, findSweep, tensorStart, tensorStartGo,
      cSurfaceBinsOf, prevLe, listFn, hr2, hr4, Function.update_apply, rat_abs_eq]
  exact ⟨his,
    purifyLoop_exit_bounds 4 [2, 2] (listFn [1, 1, 1, 1]) 10 2 none
      (listFn [1, 2, 3, 4]) (listFn [])
      ((purifyLoop 4 [2, 2] (listFn [1, 1, 1, 1]) 10 2 none (listFn [1, 2, 3, 4])
        (listFn [])).getD ⟨listFn [], listFn [], false⟩)
      (Option_eq_some_getD _ _ his)⟩

set_option maxHeartbeats 8000000 in
/-- Counterexample for claim C2 as stated: a 2x2x2 tensor (weights
[7,1,2,8,2,9,5,1], scores [-4,9,9,-3,9,2,5,-9], tolerance 3815/4917, so
impurityMax = 109/33) on which PurifyInternal converges in one pass without
the non-improvement guard, yet the weighted mean of the residual along
surface bin 3 is -2596109/748440, whose absolute value exceeds
impurityMax: later bins of the other dimensions shifted the slice after it
was zeroed. -/
theorem purify_weighted_mean_removal_cex :
    ((∀ i < 8, (0:ℚ) ≤ listFn [7, 1, 2, 8, 2, 9, 5, 1] i)
      ∧ (∑ i ∈ Finset.range 8, listFn [7, 1, 2, 8, 2, 9, 5, 1] i ≠ 0)
      ∧ (0:ℚ) ≤ 3815/4917 ∧ (8:ℕ) = [2, 2, 2].prod)
    ∧ ((PurifyInternal 1 8 (3815/4917) [2, 2, 2] (listFn [7, 1, 2, 8, 2, 9, 5, 1])
          (listFn [-4, 9, 9, -3, 9, 2, 5, -9]) (listFn []) none).map
        PurifyOut.exitedViaGuard = some (some false))
    ∧ ((∑ i ∈ Finset.range 8,
          |listFn [-4, 9, 9, -3, 9, 2, 5, -9] i * listFn [7, 1, 2, 8, 2, 9, 5, 1] i|)
        * (3815/4917) / ∑ i ∈ Finset.range 8, listFn [7, 1, 2, 8, 2, 9, 5, 1] i)
      < |sliceMean 8 [2, 2, 2] (listFn [7, 1, 2, 8, 2, 9, 5, 1])
          ((PurifyInternal 1 8 (3815/4917) [2, 2, 2] (listFn [7, 1, 2, 8, 2, 9, 5, 1])
            (listFn [-4, 9, 9, -3, 9, 2, 5, -9]) (listFn []) none).getD
            defaultPurifyOut).aScores 3| := by
  have hr2 : List.range 2 = [0, 1] := by decide
  have hr8 : List.range 8 = [0, 1, 2, 3, 4, 5, 6, 7] := by decide
  have hr12 : List.range 12 = [0, 1, 2, 3, 4, 5, 6, 7, 8, 9, 10, 11] := by decide
  refine ⟨⟨?_, ?_, ?_, ?_⟩, ?_⟩
  · intro i hi; interval_cases i <;> norm_num [listFn]
  · norm_num [listFn, Finset.sum_range_succ]
  · norm_num
  · decide
  · norm_num [PurifyInternal, purifyLoop, purifyPass, processBin, sliceMean,
      sliceWeightTotal, sliceImpuritySum, sliceInfo, findSweep, tensorStart,
      tensorStartGo, cSurfaceBinsOf, initialScan, prevLe, listFn, hr2, hr8, hr12,
      Function.update_apply, rat_abs_eq, Finset.sum_range_succ]
